import Mathlib

/-!
Shallow embedding of `src/index.ts` from the `flatten-to-key-value`
repository, together with proofs about the claims of its specification.

Modelling conventions:
* A JavaScript value is the inductive `JSValue`.  JS numbers appearing in
  the claims are integers, so `vnum` carries an `Int` and `String(v)` is
  decimal `toString`; the same holds for `vbigint`.  A `Date` is modelled
  by the string its `toISOString()` returns (`vdate iso`), which is the
  only observation `index.ts` makes of a date.
* Values that reach the final fallback of `walk` (JS `undefined`,
  functions, symbols, ...) other than `undefined` itself are modelled by
  `vother j g` where `j` records what `JSON.stringify` does on the value
  (per ECMA-262 it returns a string, or returns JS `undefined` — as it
  does for every function and symbol — or throws, e.g. from a user
  `toJSON` that throws) and `g` records the text `String(v)` produces.
* The accumulator `Map<string, string[]>` becomes an association list in
  insertion order, which is exactly the iteration order of a JS `Map`
  (`set` on an existing key keeps its position, a new key is appended).
* `Object.entries` iteration order is the field list order of `vobj`.
* `entries.sort` with the comparator `(a < b ? -1 : a > b ? 1 : 0)` on
  keys is modelled by insertion sort by key under the UTF-16 code-unit
  order that JS string `<` uses: the accumulator keys are pairwise
  distinct, so every correct sort produces the same list.
* The returned `Record<string, string>` built by `Object.fromEntries`
  is modelled by its entry list in the object's own-property
  enumeration order: array-index keys first in ascending numeric
  order, then the other keys in insertion order.
-/

inductive JsonResult where
  | ok (s : String)
  | undefResult
  | thrown

inductive JSValue where
  | vnull
  | vundef
  | vbool (b : Bool)
  | vnum (n : Int)
  | vbigint (n : Int)
  | vstr (s : String)
  | vdate (iso : String)
  | varr (elems : List JSValue)
  | vobj (fields : List (String × JSValue))
  | vother (json : JsonResult) (generic : String)

/-- The `FlattenOptions` record of `index.ts`: every field is optional. -/
structure FlattenOptions where
  delimiter : Option String
  joiner : Option String
  includeNullUndefined : Option Bool
  dedupeArrayValues : Option Bool
  sortKeys : Option Bool

/-- `flattenToKeyValue({})`: the empty options record. -/
def noOpts : FlattenOptions := ⟨none, none, none, none, none⟩

/-- The option values after the `??` defaulting at the top of
`flattenToKeyValue` (`delimiter`, `joiner`, `includeNullUndefined`,
`dedupe`).  `sortKeys` is read directly from the record later. -/
structure Config where
  delimiter : String
  joiner : String
  includeNullUndefined : Bool
  dedupe : Bool

def FlattenOptions.config (o : FlattenOptions) : Config :=
  ⟨o.delimiter.getD ".", o.joiner.getD ",", o.includeNullUndefined.getD false,
    o.dedupeArrayValues.getD false⟩

/-- `isPrimitive`: `v === null || typeof v` is one of
`string`, `number`, `boolean`, `bigint`.  Note that JS `undefined` is NOT
primitive under this test (`typeof undefined === "undefined"`). -/
def isPrimitive : JSValue → Bool
  | .vnull => true
  | .vstr _ => true
  | .vnum _ => true
  | .vbool _ => true
  | .vbigint _ => true
  | _ => false

/-- `v instanceof Date`. -/
def isDate : JSValue → Bool
  | .vdate _ => true
  | _ => false

/-- `isPlainObject`: `typeof v === "object" && v !== null &&
!Array.isArray(v)`.  A `Date` satisfies this test, but every use in
`walk` is preceded by an `instanceof Date` test, so the object branches
below only ever see `vobj`. -/
def isPlainObject : JSValue → Bool
  | .vdate _ => true
  | .vobj _ => true
  | _ => false

/-- `toStr` of `index.ts`.  The `varr`/`vobj` cases are never consulted:
`walk` only calls `toStr` on values that pass `isPrimitive`/`instanceof
Date` or that fall through to the final fallback (`undefined`, functions,
symbols), so the `JSON.stringify` of a whole array/object is never
taken.  For `vother`, `try { return JSON.stringify(v) } catch { return
String(v) }` yields the recorded string, or JS `undefined` (i.e. `none`),
or — only when `JSON.stringify` throws — the `String(v)` fallback. -/
def toStr (cfg : Config) : JSValue → Option String
  | .vnull => if cfg.includeNullUndefined then some "null" else none
  | .vundef => if cfg.includeNullUndefined then some "undefined" else none
  | .vdate iso => some iso
  | .vbool b => some (if b then "true" else "false")
  | .vnum n => some (toString n)
  | .vbigint n => some (toString n)
  | .vstr s => some s
  | .vother j g =>
    match j with
    | .ok s => some s
    | .undefResult => none
    | .thrown => some g
  | .varr _ => none
  | .vobj _ => none

/-- The accumulator `Map<string, string[]>`, in insertion order. -/
abbrev AccMap := List (String × List String)

/-- The body of `add` after the empty-key guard: find the key's list;
push unless deduping and already present; otherwise append a fresh
entry at the end (JS `Map.set` appends new keys). -/
def addToList (dedupe : Bool) (key val : String) : AccMap → AccMap
  | [] => [(key, [val])]
  | (k, vs) :: rest =>
    if k = key then
      (k, if dedupe && vs.contains val then vs else vs ++ [val]) :: rest
    else
      (k, vs) :: addToList dedupe key val rest

/-- `add` of `index.ts`: `if (!key) return` then push/insert. -/
def add (cfg : Config) (key val : String) (acc : AccMap) : AccMap :=
  if key = "" then acc else addToList cfg.dedupe key val acc

/-- `` path ? `${path}${delimiter}${k}` : k `` (the empty string is the
only falsy string). -/
def nextPath (cfg : Config) (path k : String) : String :=
  if path = "" then k else path ++ cfg.delimiter ++ k

/-- Association lookup in the accumulator (the `acc.get(key)` view). -/
def findSeq (key : String) : AccMap → Option (List String)
  | [] => none
  | (k, vs) :: rest => if k = key then some vs else findSeq key rest

/-- The `val.every(isPrimitive)` branch of `walk`: for each item in
order, stringify and `add` non-skipped results under `path`. -/
def addPrims (cfg : Config) (items : List JSValue) (path : String) (acc : AccMap) : AccMap :=
  match items with
  | [] => acc
  | item :: rest =>
    addPrims cfg rest path
      (match toStr cfg item with
       | some s => add cfg path s acc
       | none => acc)

mutual

/-- `walk(val, path)` of `index.ts`, with the accumulator passed
explicitly.  The branch order is that of the source: primitive/date
leaf, array (all-primitive, else mixed), plain object, final fallback
(which receives exactly JS `undefined`, functions and symbols — dates
were already consumed by the first branch, cf. `isPlainObject`). -/
def walkVal (cfg : Config) (val : JSValue) (path : String) (acc : AccMap) : AccMap :=
  if isPrimitive val || isDate val then
    match toStr cfg val with
    | some s => add cfg path s acc
    | none => acc
  else
    match val with
    | .varr items =>
      if items.all isPrimitive then addPrims cfg items path acc
      else walkMixed cfg items path acc
    | .vobj fields => walkFields cfg fields path acc
    | other =>
      match toStr cfg other with
      | some s => add cfg path s acc
      | none => acc

/-- The mixed-array loop of `walk`: primitive/date items are emitted
under `path`, nested arrays recurse with the SAME `path`, plain-object
items walk each field under the extended path, anything else (JS
`undefined`, functions, symbols inside a mixed array) is skipped. -/
def walkMixed (cfg : Config) (items : List JSValue) (path : String) (acc : AccMap) : AccMap :=
  match items with
  | [] => acc
  | item :: rest =>
    walkMixed cfg rest path
      (if isPrimitive item || isDate item then
        match toStr cfg item with
        | some s => add cfg path s acc
        | none => acc
      else
        match item with
        | .varr inner => walkVal cfg (.varr inner) path acc
        | .vobj fields => walkFields cfg fields path acc
        | _ => acc)

/-- The `Object.entries` loop of `walk`: each field value is walked at
`path ? path + delimiter + k : k`. -/
def walkFields (cfg : Config) (fields : List (String × JSValue)) (path : String) (acc : AccMap) : AccMap :=
  match fields with
  | [] => acc
  | (k, v) :: rest =>
    walkFields cfg rest path (walkVal cfg v (nextPath cfg path k) acc)

end

/-- The UTF-16 code units of a string: a character below `0x10000` is
one unit, any other is the surrogate pair
`0xD800 + (c - 0x10000) / 0x400`, `0xDC00 + (c - 0x10000) % 0x400`.
JS string comparison (`a < b`) is lexicographic on these units, which
differs from code-point order exactly on supplementary-plane
characters. -/
def utf16Units (s : String) : List Nat :=
  s.data.flatMap (fun c =>
    if c.toNat < 65536 then [c.toNat]
    else [55296 + (c.toNat - 65536) / 1024, 56320 + (c.toNat - 65536) % 1024])

/-- The JS string order used by the sort comparator
`(a < b ? -1 : a > b ? 1 : 0)`: lexicographic `≤` on UTF-16 code
units. -/
def jsStringLe (a b : String) : Prop := utf16Units a ≤ utf16Units b

instance jsStringLeDec : ∀ a b, Decidable (jsStringLe a b) :=
  fun a b => inferInstanceAs (Decidable (utf16Units a ≤ utf16Units b))

/-- The final `entries.sort(([a], [b]) => (a < b ? -1 : a > b ? 1 : 0))`.
Insertion sort by key under the UTF-16 code-unit order; the keys are
distinct, so this is the unique key-sorted reordering. -/
def sortEntries (entries : List (String × String)) : List (String × String) :=
  List.insertionSort (fun x y => jsStringLe x.1 y.1) entries

/-- The numeric value of a digit string (junk on non-digit strings,
which is harmless: it is only consulted on array-index keys). -/
def natOfDigits (ds : List Char) : Nat :=
  ds.foldl (fun n c => n * 10 + (c.toNat - 48)) 0

/-- Whether a property key is an ECMA-262 array index: the canonical
decimal numeral (digits only, no leading zero except `"0"` itself) of
an integer `0 ≤ n < 2^32 - 1`.  `Object.fromEntries` enumerates such
keys first, in ascending numeric order. -/
def isArrayIndexKey (s : String) : Bool :=
  !s.data.isEmpty && s.data.all (fun c => c.isDigit) &&
    (s.data = ['0'] || s.data.head? ≠ some '0') && natOfDigits s.data < 4294967295

/-- `Object.fromEntries(entries)` of `index.ts`, observed through the
returned object's own-property enumeration order
(OrdinaryOwnPropertyKeys): array-index keys first in ascending numeric
order, then the remaining string keys in insertion order.  The entry
lists reaching it here always have pairwise-distinct keys (they come
from the `Map`, possibly sorted), so repeated assignment to one key
never occurs and the values are the list's own. -/
def fromEntries (entries : List (String × String)) : List (String × String) :=
  List.insertionSort (fun x y => natOfDigits x.1.data ≤ natOfDigits y.1.data)
      (entries.filter (fun p => isArrayIndexKey p.1)) ++
    entries.filter (fun p => !isArrayIndexKey p.1)

/-- The entry list `Array.from(acc.entries()).map(([k, arr]) => [k,
arr.join(joiner)])` of `index.ts`, in `Map` insertion order. -/
def entryList (input : JSValue) (opts : FlattenOptions) : List (String × String) :=
  (walkVal opts.config input "" []).map
    (fun kv => (kv.1, String.intercalate opts.config.joiner kv.2))

/-- The entry list after the optional `entries.sort(...)` step. -/
def orderedEntries (input : JSValue) (opts : FlattenOptions) : List (String × String) :=
  if opts.sortKeys.getD false then sortEntries (entryList input opts)
  else entryList input opts

/-- `flattenToKeyValue` of `index.ts`: resolve options, walk from the
root with the empty path, join each key's values with `joiner`, sort
the entries when `opts.sortKeys` is truthy, and build the returned
record with `Object.fromEntries`.  The record is modelled by its entry
list in the object's own-property enumeration order. -/
def flattenToKeyValue (input : JSValue) (opts : FlattenOptions) : List (String × String) :=
  fromEntries (orderedEntries input opts)

/-! ### A fuel-bounded variant of the walk

`walkValF` runs the same algorithm as `walkVal` but spends one unit of
fuel on every recursive step and gives up (`none`) when fuel runs out.
`sz` measures an input value; the theorem for the termination claim
shows fuel `sz input` always suffices, i.e. the recursion of `walk`
terminates on every finite input. -/

mutual

def sz : JSValue → Nat
  | .varr items => szList items + 1
  | .vobj fields => szFields fields + 1
  | _ => 1

def szList : List JSValue → Nat
  | [] => 0
  | v :: rest => sz v + szList rest + 1

def szFields : List (String × JSValue) → Nat
  | [] => 0
  | (_, v) :: rest => sz v + szFields rest + 1

end

mutual

def walkValF (cfg : Config) (fuel : Nat) (val : JSValue) (path : String)
    (acc : AccMap) : Option AccMap :=
  match fuel with
  | 0 => none
  | fuel' + 1 =>
    if isPrimitive val || isDate val then
      some (match toStr cfg val with
            | some s => add cfg path s acc
            | none => acc)
    else
      match val with
      | .varr items =>
        if items.all isPrimitive then some (addPrims cfg items path acc)
        else walkMixedF cfg fuel' items path acc
      | .vobj fields => walkFieldsF cfg fuel' fields path acc
      | other =>
        some (match toStr cfg other with
              | some s => add cfg path s acc
              | none => acc)

def walkMixedF (cfg : Config) (fuel : Nat) (items : List JSValue) (path : String)
    (acc : AccMap) : Option AccMap :=
  match items with
  | [] => some acc
  | item :: rest =>
    match fuel with
    | 0 => none
    | fuel' + 1 =>
      match (if isPrimitive item || isDate item then
              some (match toStr cfg item with
                    | some s => add cfg path s acc
                    | none => acc)
             else
              match item with
              | .varr inner => walkValF cfg fuel' (.varr inner) path acc
              | .vobj fields => walkFieldsF cfg fuel' fields path acc
              | _ => some acc) with
      | none => none
      | some acc1 => walkMixedF cfg fuel' rest path acc1

def walkFieldsF (cfg : Config) (fuel : Nat) (fields : List (String × JSValue))
    (path : String) (acc : AccMap) : Option AccMap :=
  match fields with
  | [] => some acc
  | (k, v) :: rest =>
    match fuel with
    | 0 => none
    | fuel' + 1 =>
      match walkValF cfg fuel' v (nextPath cfg path k) acc with
      | none => none
      | some acc1 => walkFieldsF cfg fuel' rest path acc1

end

instance keyLeTotal : IsTotal (String × String) (fun x y => jsStringLe x.1 y.1) :=
  ⟨fun a b => le_total (utf16Units a.1) (utf16Units b.1)⟩

instance keyLeTrans : IsTrans (String × String) (fun x y => jsStringLe x.1 y.1) :=
  ⟨fun _ _ _ h1 h2 => le_trans h1 h2⟩

/-- The common emission step `const s = toStr(v); if (s !== undefined)
add(path, s)`, as a function of the optional string. -/
def emitStep (cfg : Config) (path : String) (o : Option String) (acc : AccMap) : AccMap :=
  match o with
  | some s => add cfg path s acc
  | none => acc

theorem sz_pos (v : JSValue) : 1 ≤ sz v := by
  cases v <;> simp [sz]

theorem walkF_eq_walk (cfg : Config) : ∀ fuel : Nat,
    (∀ val path acc, sz val ≤ fuel →
      walkValF cfg fuel val path acc = some (walkVal cfg val path acc)) ∧
    (∀ items path acc, szList items ≤ fuel →
      walkMixedF cfg fuel items path acc = some (walkMixed cfg items path acc)) ∧
    (∀ fields path acc, szFields fields ≤ fuel →
      walkFieldsF cfg fuel fields path acc = some (walkFields cfg fields path acc)) := by
  intro fuel
  induction fuel with
  | zero =>
    refine ⟨fun val path acc h => absurd h (by have := sz_pos val; omega),
      fun items path acc h => ?_, fun fields path acc h => ?_⟩
    · cases items with
      | nil => simp [walkMixedF, walkMixed]
      | cons item rest => simp [szList] at h
    · cases fields with
      | nil => simp [walkFieldsF, walkFields]
      | cons kv rest =>
        obtain ⟨k, v⟩ := kv
        simp [szFields] at h
  | succ fuel ih =>
    obtain ⟨ihV, ihM, ihF⟩ := ih
    refine ⟨fun val path acc h => ?_, fun items path acc h => ?_,
      fun fields path acc h => ?_⟩
    · cases val
      case varr items =>
        by_cases ha : items.all isPrimitive
        · simp [walkValF, walkVal, isPrimitive, isDate, ha]
        · have hs : szList items ≤ fuel := by simp [sz] at h; omega
          have hM := fun a => ihM items path a hs
          simp [walkValF, walkVal, isPrimitive, isDate, ha, hM]
      case vobj fields =>
        have hs : szFields fields ≤ fuel := by simp [sz] at h; omega
        have hF := fun a => ihF fields path a hs
        simp [walkValF, walkVal, isPrimitive, isDate, hF]
      all_goals simp [walkValF, walkVal, isPrimitive, isDate]
    · cases items with
      | nil => simp [walkMixedF, walkMixed]
      | cons item rest =>
        simp only [szList] at h
        have hrest : szList rest ≤ fuel := by have := sz_pos item; omega
        have hM := fun a => ihM rest path a hrest
        cases item
        case varr inner =>
          have hv : sz (JSValue.varr inner) ≤ fuel := by omega
          have hV := fun a => ihV (JSValue.varr inner) path a hv
          simp [walkMixedF, walkMixed, isPrimitive, isDate, hV, hM]
        case vobj fields =>
          have hf : szFields fields ≤ fuel := by simp [sz] at h; omega
          have hF := fun a => ihF fields path a hf
          simp [walkMixedF, walkMixed, isPrimitive, isDate, hF, hM]
        all_goals simp [walkMixedF, walkMixed, isPrimitive, isDate, hM]
    · cases fields with
      | nil => simp [walkFieldsF, walkFields]
      | cons kv rest =>
        obtain ⟨k, v⟩ := kv
        simp only [szFields] at h
        have hv : sz v ≤ fuel := by omega
        have hrest : szFields rest ≤ fuel := by have := sz_pos v; omega
        have hV := ihV v (nextPath cfg path k) acc hv
        have hF := fun a => ihF rest path a hrest
        simp [walkFieldsF, walkFields, hV, hF]

/-! ### Unfolding lemmas for the walk -/

theorem walkMixed_nil (cfg : Config) (path : String) (acc : AccMap) :
    walkMixed cfg [] path acc = acc := by
  rw [walkMixed]

theorem walkMixed_cons_prim (cfg : Config) (item : JSValue) (rest : List JSValue)
    (path : String) (acc : AccMap) (h : (isPrimitive item || isDate item) = true) :
    walkMixed cfg (item :: rest) path acc =
      walkMixed cfg rest path (emitStep cfg path (toStr cfg item) acc) := by
  rw [walkMixed]
  · rw [if_pos h]
    congr 1
  · rintro items rfl
    simp [isPrimitive, isDate] at h
  · rintro fields rfl
    simp [isPrimitive, isDate] at h

theorem walkMixed_cons_arr (cfg : Config) (inner : List JSValue) (rest : List JSValue)
    (path : String) (acc : AccMap) :
    walkMixed cfg (.varr inner :: rest) path acc =
      walkMixed cfg rest path (walkVal cfg (.varr inner) path acc) := by
  rw [walkMixed]
  simp [isPrimitive, isDate]

theorem walkMixed_cons_obj (cfg : Config) (fields : List (String × JSValue))
    (rest : List JSValue) (path : String) (acc : AccMap) :
    walkMixed cfg (.vobj fields :: rest) path acc =
      walkMixed cfg rest path (walkFields cfg fields path acc) := by
  rw [walkMixed]
  simp [isPrimitive, isDate]

theorem walkMixed_cons_undef (cfg : Config) (rest : List JSValue)
    (path : String) (acc : AccMap) :
    walkMixed cfg (.vundef :: rest) path acc = walkMixed cfg rest path acc := by
  rw [walkMixed]
  · simp [isPrimitive, isDate]
  · simp
  · simp

theorem walkMixed_cons_other (cfg : Config) (j : JsonResult) (g : String)
    (rest : List JSValue) (path : String) (acc : AccMap) :
    walkMixed cfg (.vother j g :: rest) path acc = walkMixed cfg rest path acc := by
  rw [walkMixed]
  · simp [isPrimitive, isDate]
  · simp
  · simp

theorem walkFields_nil (cfg : Config) (path : String) (acc : AccMap) :
    walkFields cfg [] path acc = acc := by
  rw [walkFields]

theorem walkFields_cons (cfg : Config) (k : String) (v : JSValue)
    (rest : List (String × JSValue)) (path : String) (acc : AccMap) :
    walkFields cfg ((k, v) :: rest) path acc =
      walkFields cfg rest path (walkVal cfg v (nextPath cfg path k) acc) := by
  rw [walkFields]

theorem walkVal_arr_prim (cfg : Config) (items : List JSValue) (path : String)
    (acc : AccMap) (ha : items.all isPrimitive = true) :
    walkVal cfg (.varr items) path acc = addPrims cfg items path acc := by
  rw [walkVal]
  simp [isPrimitive, isDate, ha]

theorem walkVal_arr_mixed (cfg : Config) (items : List JSValue) (path : String)
    (acc : AccMap) (ha : items.all isPrimitive = false) :
    walkVal cfg (.varr items) path acc = walkMixed cfg items path acc := by
  rw [walkVal]
  simp [isPrimitive, isDate, ha]

theorem walkVal_obj (cfg : Config) (fields : List (String × JSValue)) (path : String)
    (acc : AccMap) :
    walkVal cfg (.vobj fields) path acc = walkFields cfg fields path acc := by
  rw [walkVal]
  simp [isPrimitive, isDate]

theorem walkValF_zero {cfg : Config} {val : JSValue} {path : String} {acc : AccMap} :
    walkValF cfg 0 val path acc = none := by
  rw [walkValF]

theorem walkValF_succ_arr_prim {cfg : Config} {fuel : Nat} {items : List JSValue}
    {path : String} {acc : AccMap} (ha : items.all isPrimitive = true) :
    walkValF cfg (fuel + 1) (.varr items) path acc = some (addPrims cfg items path acc) := by
  rw [walkValF]
  simp [isPrimitive, isDate, ha]

theorem walkValF_succ_arr_mixed {cfg : Config} {fuel : Nat} {items : List JSValue}
    {path : String} {acc : AccMap} (ha : items.all isPrimitive = false) :
    walkValF cfg (fuel + 1) (.varr items) path acc = walkMixedF cfg fuel items path acc := by
  rw [walkValF]
  simp [isPrimitive, isDate, ha]

theorem walkValF_succ_obj {cfg : Config} {fuel : Nat} {fields : List (String × JSValue)}
    {path : String} {acc : AccMap} :
    walkValF cfg (fuel + 1) (.vobj fields) path acc = walkFieldsF cfg fuel fields path acc := by
  rw [walkValF]
  simp [isPrimitive, isDate]

theorem walkValF_succ_leaf {cfg : Config} {fuel : Nat} {v : JSValue} {path : String}
    {acc : AccMap} (hv1 : ∀ items, v ≠ .varr items) (hv2 : ∀ fs, v ≠ .vobj fs) :
    walkValF cfg (fuel + 1) v path acc =
      some (emitStep cfg path (toStr cfg v) acc) := by
  rw [walkValF]
  · rw [ite_self]
    congr 1
  · exact fun items hx => absurd hx (hv1 items)
  · exact fun fs hx => absurd hx (hv2 fs)

theorem walkMixedF_nil {cfg : Config} {fuel : Nat} {path : String} {acc : AccMap} :
    walkMixedF cfg fuel [] path acc = some acc := by
  rw [walkMixedF]

theorem walkMixedF_cons_prim {cfg : Config} {fuel : Nat} {item : JSValue}
    {rest : List JSValue} {path : String} {acc : AccMap}
    (h : (isPrimitive item || isDate item) = true) :
    walkMixedF cfg (fuel + 1) (item :: rest) path acc =
      walkMixedF cfg fuel rest path (emitStep cfg path (toStr cfg item) acc) := by
  rw [walkMixedF]
  · rw [if_pos h]
    congr 2
  · rintro items rfl
    simp [isPrimitive, isDate] at h
  · rintro fields rfl
    simp [isPrimitive, isDate] at h

theorem walkMixedF_cons_arr {cfg : Config} {fuel : Nat} {inner : List JSValue}
    {rest : List JSValue} {path : String} {acc : AccMap} :
    walkMixedF cfg (fuel + 1) (.varr inner :: rest) path acc =
      match walkValF cfg fuel (.varr inner) path acc with
      | none => none
      | some acc1 => walkMixedF cfg fuel rest path acc1 := by
  rw [walkMixedF]
  simp [isPrimitive, isDate]

theorem walkMixedF_cons_obj {cfg : Config} {fuel : Nat} {fields : List (String × JSValue)}
    {rest : List JSValue} {path : String} {acc : AccMap} :
    walkMixedF cfg (fuel + 1) (.vobj fields :: rest) path acc =
      match walkFieldsF cfg fuel fields path acc with
      | none => none
      | some acc1 => walkMixedF cfg fuel rest path acc1 := by
  rw [walkMixedF]
  simp [isPrimitive, isDate]

theorem walkMixedF_cons_undef {cfg : Config} {fuel : Nat} {rest : List JSValue}
    {path : String} {acc : AccMap} :
    walkMixedF cfg (fuel + 1) (.vundef :: rest) path acc =
      walkMixedF cfg fuel rest path acc := by
  rw [walkMixedF]
  · simp [isPrimitive, isDate]
  · simp
  · simp

theorem walkMixedF_cons_other {cfg : Config} {fuel : Nat} {j : JsonResult} {g : String}
    {rest : List JSValue} {path : String} {acc : AccMap} :
    walkMixedF cfg (fuel + 1) (.vother j g :: rest) path acc =
      walkMixedF cfg fuel rest path acc := by
  rw [walkMixedF]
  · simp [isPrimitive, isDate]
  · simp
  · simp

theorem walkFieldsF_nil {cfg : Config} {fuel : Nat} {path : String} {acc : AccMap} :
    walkFieldsF cfg fuel [] path acc = some acc := by
  rw [walkFieldsF]

theorem walkFieldsF_cons {cfg : Config} {fuel : Nat} {k : String} {v : JSValue}
    {rest : List (String × JSValue)} {path : String} {acc : AccMap} :
    walkFieldsF cfg (fuel + 1) ((k, v) :: rest) path acc =
      match walkValF cfg fuel v (nextPath cfg path k) acc with
      | none => none
      | some acc1 => walkFieldsF cfg fuel rest path acc1 := by
  rw [walkFieldsF]

/-! ### Generic preservation of accumulator invariants along the walk -/

/-- Any accumulator property preserved by `add` is preserved by the
all-primitive loop. -/
theorem addPrims_preserves (cfg : Config) (P : AccMap → Prop)
    (hAdd : ∀ key val acc, P acc → P (add cfg key val acc)) :
    ∀ items path acc, P acc → P (addPrims cfg items path acc) := by
  intro items
  induction items with
  | nil => intro path acc h; simpa [addPrims] using h
  | cons item rest ih =>
    intro path acc h
    rw [addPrims]
    cases toStr cfg item with
    | none => exact ih path acc h
    | some s => exact ih path _ (hAdd path s acc h)

/-- Any accumulator property preserved by `add` is preserved by the
fuel-bounded walk. -/
theorem walkF_preserves (cfg : Config) (P : AccMap → Prop)
    (hAdd : ∀ key val acc, P acc → P (add cfg key val acc)) : ∀ fuel : Nat,
    (∀ val path acc acc', P acc →
      walkValF cfg fuel val path acc = some acc' → P acc') ∧
    (∀ items path acc acc', P acc →
      walkMixedF cfg fuel items path acc = some acc' → P acc') ∧
    (∀ fields path acc acc', P acc →
      walkFieldsF cfg fuel fields path acc = some acc' → P acc') := by
  have stepP : ∀ (o : Option String) path acc, P acc → P (emitStep cfg path o acc) := by
    intro o path acc h
    cases o with
    | none => exact h
    | some s => exact hAdd path s acc h
  intro fuel
  induction fuel with
  | zero =>
    refine ⟨fun val path acc acc' h heq =>
      absurd (walkValF_zero ▸ heq) (by simp),
      fun items path acc acc' h heq => ?_, fun fields path acc acc' h heq => ?_⟩
    · cases items with
      | nil =>
        rw [walkMixedF_nil, Option.some_inj] at heq
        exact heq ▸ h
      | cons item rest => rw [walkMixedF] at heq; cases heq
    · cases fields with
      | nil =>
        rw [walkFieldsF_nil, Option.some_inj] at heq
        exact heq ▸ h
      | cons kv rest =>
        obtain ⟨k, v⟩ := kv
        rw [walkFieldsF] at heq
        cases heq
  | succ fuel ih =>
    obtain ⟨ihV, ihM, ihF⟩ := ih
    refine ⟨fun val path acc acc' h heq => ?_, fun items path acc acc' h heq => ?_,
      fun fields path acc acc' h heq => ?_⟩
    · cases val
      case varr items =>
        by_cases ha : items.all isPrimitive
        · rw [walkValF_succ_arr_prim ha, Option.some_inj] at heq
          exact heq ▸ addPrims_preserves cfg P hAdd items path acc h
        · rw [walkValF_succ_arr_mixed (Bool.not_eq_true _ ▸ ha)] at heq
          exact ihM items path acc acc' h heq
      case vobj fields =>
        rw [walkValF_succ_obj] at heq
        exact ihF fields path acc acc' h heq
      all_goals
        rw [walkValF_succ_leaf (by intro x hx; cases hx) (by intro x hx; cases hx),
          Option.some_inj] at heq
        exact heq ▸ stepP _ path acc h
    · cases items with
      | nil =>
        rw [walkMixedF_nil, Option.some_inj] at heq
        exact heq ▸ h
      | cons item rest =>
        cases item
        case varr inner =>
          rw [walkMixedF_cons_arr] at heq
          cases hstep : walkValF cfg fuel (JSValue.varr inner) path acc with
          | none => rw [hstep] at heq; cases heq
          | some acc1 =>
            rw [hstep] at heq
            exact ihM rest path acc1 acc' (ihV _ path acc acc1 h hstep) heq
        case vobj fields =>
          rw [walkMixedF_cons_obj] at heq
          cases hstep : walkFieldsF cfg fuel fields path acc with
          | none => rw [hstep] at heq; cases heq
          | some acc1 =>
            rw [hstep] at heq
            exact ihM rest path acc1 acc' (ihF _ path acc acc1 h hstep) heq
        case vundef =>
          rw [walkMixedF_cons_undef] at heq
          exact ihM rest path acc acc' h heq
        case vother j g =>
          rw [walkMixedF_cons_other] at heq
          exact ihM rest path acc acc' h heq
        all_goals
          rw [walkMixedF_cons_prim (by simp [isPrimitive, isDate])] at heq
          exact ihM rest path _ acc' (stepP _ path acc h) heq
    · cases fields with
      | nil =>
        rw [walkFieldsF_nil, Option.some_inj] at heq
        exact heq ▸ h
      | cons kv rest =>
        obtain ⟨k, v⟩ := kv
        rw [walkFieldsF_cons] at heq
        cases hstep : walkValF cfg fuel v (nextPath cfg path k) acc with
        | none => rw [hstep] at heq; cases heq
        | some acc1 =>
          rw [hstep] at heq
          exact ihF rest path acc1 acc' (ihV _ _ acc acc1 h hstep) heq

/-- Any accumulator property preserved by `add` holds after `walkVal`. -/
theorem walkVal_preserves (cfg : Config) (P : AccMap → Prop)
    (hAdd : ∀ key val acc, P acc → P (add cfg key val acc))
    (val : JSValue) (path : String) (acc : AccMap) (h : P acc) :
    P (walkVal cfg val path acc) :=
  (walkF_preserves cfg P hAdd (sz val)).1 val path acc _ h
    ((walkF_eq_walk cfg (sz val)).1 val path acc le_rfl)

/-- `walk` on a leaf (primitive, date, `undefined`, or opaque value):
stringify and emit. -/
theorem walkVal_leaf (cfg : Config) (v : JSValue) (path : String) (acc : AccMap)
    (hv1 : ∀ items, v ≠ .varr items) (hv2 : ∀ fs, v ≠ .vobj fs) :
    walkVal cfg v path acc = emitStep cfg path (toStr cfg v) acc := by
  rw [walkVal]
  · rw [ite_self]
    rfl
  · exact fun items hx => absurd hx (hv1 items)
  · exact fun fs hx => absurd hx (hv2 fs)

/-! ### The array branches collapse to one uniform element loop -/

/-- On an all-primitive array the mixed loop and the primitive loop
agree. -/
theorem walkMixed_eq_addPrims (cfg : Config) :
    ∀ (items : List JSValue) (path : String) (acc : AccMap),
      items.all isPrimitive = true →
      walkMixed cfg items path acc = addPrims cfg items path acc := by
  intro items
  induction items with
  | nil =>
    intro path acc _
    rw [walkMixed_nil, addPrims]
  | cons item rest ih =>
    intro path acc h
    simp only [List.all_cons, Bool.and_eq_true] at h
    rw [walkMixed_cons_prim cfg item rest path acc (by simp [h.1]), ih path _ h.2]
    rfl

/-- `walk` on any array runs the element loop: every element is
processed at the same `path`. -/
theorem walkVal_varr_eq (cfg : Config) (items : List JSValue) (path : String)
    (acc : AccMap) :
    walkVal cfg (.varr items) path acc = walkMixed cfg items path acc := by
  cases ha : items.all isPrimitive with
  | false => rw [walkVal_arr_mixed cfg items path acc ha]
  | true => rw [walkVal_arr_prim cfg items path acc ha, walkMixed_eq_addPrims cfg items path acc ha]

theorem walkMixed_append (cfg : Config) :
    ∀ (a b : List JSValue) (path : String) (acc : AccMap),
      walkMixed cfg (a ++ b) path acc = walkMixed cfg b path (walkMixed cfg a path acc) := by
  intro a
  induction a with
  | nil =>
    intro b path acc
    rw [List.nil_append, walkMixed_nil]
  | cons item rest ih =>
    intro b path acc
    cases item
    case varr inner =>
      rw [List.cons_append, walkMixed_cons_arr, walkMixed_cons_arr, ih]
    case vobj fields =>
      rw [List.cons_append, walkMixed_cons_obj, walkMixed_cons_obj, ih]
    case vundef =>
      rw [List.cons_append, walkMixed_cons_undef, walkMixed_cons_undef, ih]
    case vother j g =>
      rw [List.cons_append, walkMixed_cons_other, walkMixed_cons_other, ih]
    all_goals
      rw [List.cons_append,
        walkMixed_cons_prim _ _ _ _ _ (by simp [isPrimitive, isDate]),
        walkMixed_cons_prim _ _ _ _ _ (by simp [isPrimitive, isDate]), ih]

/-- A list of nested arrays aggregates exactly like the concatenation
of their elements: array nesting never shows up in paths or grouping. -/
theorem walkMixed_map_varr (cfg : Config) :
    ∀ (ls : List (List JSValue)) (path : String) (acc : AccMap),
      walkMixed cfg (ls.map .varr) path acc = walkMixed cfg ls.flatten path acc := by
  intro ls
  induction ls with
  | nil =>
    intro path acc
    rw [List.map_nil, List.flatten_nil]
  | cons l rest ih =>
    intro path acc
    rw [List.map_cons, walkMixed_cons_arr, walkVal_varr_eq, List.flatten_cons,
      walkMixed_append, ih]

/-! ### Accumulator lemmas -/

theorem mem_addToList {d : Bool} {key val : String} :
    ∀ {acc : AccMap} {p : String × List String},
      p ∈ addToList d key val acc → p.1 = key ∨ p ∈ acc := by
  intro acc
  induction acc with
  | nil =>
    intro p hp
    rw [addToList, List.mem_singleton] at hp
    left
    rw [hp]
  | cons kv rest ih =>
    intro p hp
    obtain ⟨k, vs⟩ := kv
    rw [addToList] at hp
    by_cases hk : k = key
    · rw [if_pos hk] at hp
      rcases List.mem_cons.mp hp with h1 | h2
      · left
        rw [h1]
        exact hk
      · right
        exact List.mem_cons_of_mem _ h2
    · rw [if_neg hk] at hp
      rcases List.mem_cons.mp hp with h1 | h2
      · right
        exact h1 ▸ List.mem_cons_self _ _
      · rcases ih h2 with h3 | h4
        · left
          exact h3
        · right
          exact List.mem_cons_of_mem _ h4

/-- `add` never creates an empty key. -/
theorem add_keys_ne (cfg : Config) (key val : String) (acc : AccMap)
    (h : ∀ p ∈ acc, p.1 ≠ "") : ∀ p ∈ add cfg key val acc, p.1 ≠ "" := by
  intro p hp
  rw [add] at hp
  by_cases hk : key = ""
  · rw [if_pos hk] at hp
    exact h p hp
  · rw [if_neg hk] at hp
    rcases mem_addToList hp with h1 | h2
    · rw [h1]
      exact hk
    · exact h p h2

/-- With dedupe on, pushing a value already present in the key's
sequence leaves the accumulator unchanged. -/
theorem addToList_dedupe_skip {key val : String} :
    ∀ {acc : AccMap} {vs : List String}, findSeq key acc = some vs →
      vs.contains val = true → addToList true key val acc = acc := by
  intro acc
  induction acc with
  | nil =>
    intro vs hf _
    rw [findSeq] at hf
    cases hf
  | cons kv rest ih =>
    intro vs hf hc
    obtain ⟨k, vs'⟩ := kv
    rw [findSeq] at hf
    rw [addToList]
    by_cases hk : k = key
    · rw [if_pos hk] at hf ⊢
      rw [Option.some_inj] at hf
      rw [hf, hc]
      simp
    · rw [if_neg hk] at hf ⊢
      rw [ih hf hc]

/-- Pushing onto an existing key updates exactly that key's sequence:
unchanged when deduping finds the value, appended at the end
otherwise. -/
theorem findSeq_addToList {d : Bool} {key val : String} :
    ∀ {acc : AccMap} {vs : List String}, findSeq key acc = some vs →
      findSeq key (addToList d key val acc) =
        some (if d && vs.contains val then vs else vs ++ [val]) := by
  intro acc
  induction acc with
  | nil =>
    intro vs hf
    rw [findSeq] at hf
    cases hf
  | cons kv rest ih =>
    intro vs hf
    obtain ⟨k, vs'⟩ := kv
    rw [findSeq] at hf
    rw [addToList]
    by_cases hk : k = key
    · rw [if_pos hk] at hf ⊢
      rw [Option.some_inj] at hf
      rw [findSeq, if_pos hk, hf]
    · rw [if_neg hk] at hf ⊢
      rw [findSeq, if_neg hk]
      exact ih hf

/-! ### The final object construction -/

/-- `Object.fromEntries` only reorders a duplicate-free entry list. -/
theorem fromEntries_perm (l : List (String × String)) : List.Perm (fromEntries l) l := by
  rw [fromEntries]
  exact ((List.perm_insertionSort _ _).append_right _).trans
    (List.filter_append_perm _ l)

/-- When no key is an array index, `Object.fromEntries` preserves the
entry list exactly. -/
theorem fromEntries_of_no_index (l : List (String × String))
    (h : l.all (fun p => !isArrayIndexKey p.1) = true) : fromEntries l = l := by
  rw [fromEntries]
  rw [List.all_eq_true] at h
  have h1 : l.filter (fun p => isArrayIndexKey p.1) = [] := by
    rw [List.filter_eq_nil_iff]
    intro a ha
    simpa using h a ha
  have h2 : l.filter (fun p => !isArrayIndexKey p.1) = l := by
    rw [List.filter_eq_self]
    exact h
  rw [h1, h2]
  rfl

/-- Every entry of the returned object comes from the pre-sort entry
list (neither the sort nor `Object.fromEntries` adds or drops
entries). -/
theorem mem_entryList_of_mem_flatten (input : JSValue) (opts : FlattenOptions)
    (p : String × String) (h : p ∈ flattenToKeyValue input opts) :
    p ∈ entryList input opts := by
  rw [flattenToKeyValue] at h
  have h0 := (fromEntries_perm _).mem_iff.mp h
  rw [orderedEntries] at h0
  by_cases hs : opts.sortKeys.getD false = true
  · rw [if_pos hs, sortEntries, List.mem_insertionSort] at h0
    exact h0
  · rw [if_neg hs] at h0
    exact h0

/-! ### Claim theorems -/

/-- Claim C4, counterexample: an opaque leaf whose JSON-style
serialization yields no string — as `JSON.stringify` does for every
plain function or symbol, returning JS `undefined` without throwing —
is NOT stringified to a string and produces NO entry: `toStr` yields
nothing and flattening `{f: function(){}}` gives the empty mapping,
contradicting the claim that stringification always produces a string
and that every opaque leaf produces an entry. -/
theorem claim4_counterexample :
    toStr (FlattenOptions.config noOpts) (.vother .undefResult "fn") = none ∧
    flattenToKeyValue (.vobj [("f", .vother .undefResult "fn")]) noOpts = [] := by
  constructor
  · rfl
  · simp [flattenToKeyValue, orderedEntries, entryList, FlattenOptions.config, noOpts, walkVal, walkFields, walkMixed,
      addPrims, nextPath, toStr, add, addToList, isPrimitive, isDate, sortEntries, emitStep]
    decide

/-- Claim C4, amended: stringification of an opaque leaf never raises —
a throwing JSON serialization is caught and replaced by the generic
textual representation — but it is not total onto strings: when the
JSON-style serialization returns a string the leaf emits that string,
when it throws the leaf emits the generic representation, and when it
yields no string (as for functions and symbols) `toStr` produces no
string and the leaf is skipped, producing no entry. -/
theorem claim4_opaque_stringification (cfg : Config) (g s path : String) (acc : AccMap) :
    toStr cfg (.vother (.ok s) g) = some s ∧
    toStr cfg (.vother .thrown g) = some g ∧
    toStr cfg (.vother .undefResult g) = none ∧
    walkVal cfg (.vother (.ok s) g) path acc = add cfg path s acc ∧
    walkVal cfg (.vother .thrown g) path acc = add cfg path g acc ∧
    walkVal cfg (.vother .undefResult g) path acc = acc := by
  refine ⟨rfl, rfl, rfl, ?_, ?_, ?_⟩
  · rw [walkVal_leaf cfg (.vother (.ok s) g) path acc
      (by intro x hx; cases hx) (by intro x hx; cases hx)]
    rfl
  · rw [walkVal_leaf cfg (.vother .thrown g) path acc
      (by intro x hx; cases hx) (by intro x hx; cases hx)]
    rfl
  · rw [walkVal_leaf cfg (.vother .undefResult g) path acc
      (by intro x hx; cases hx) (by intro x hx; cases hx)]
    rfl

/-- Claim C5: array positions never contribute a path segment.  A
nested array element is walked with the same `currentPath` as the
enclosing array; a whole array of nested arrays aggregates exactly like
the concatenation of their element lists; and flattening
`{a: [[1,2],[3]]}` with defaults yields `{"a": "1,2,3"}`. -/
theorem claim5_arrays_never_extend_paths :
    (∀ (cfg : Config) (inner rest : List JSValue) (path : String) (acc : AccMap),
      walkMixed cfg (.varr inner :: rest) path acc =
        walkMixed cfg rest path (walkVal cfg (.varr inner) path acc)) ∧
    (∀ (cfg : Config) (ls : List (List JSValue)) (path : String) (acc : AccMap),
      walkVal cfg (.varr (ls.map .varr)) path acc = walkVal cfg (.varr ls.flatten) path acc) ∧
    flattenToKeyValue (.vobj [("a", .varr [.varr [.vnum 1, .vnum 2], .varr [.vnum 3]])])
      noOpts = [("a", "1,2,3")] := by
  refine ⟨fun cfg inner rest path acc => walkMixed_cons_arr cfg inner rest path acc,
    fun cfg ls path acc => ?_, ?_⟩
  · rw [walkVal_varr_eq, walkVal_varr_eq, walkMixed_map_varr]
  · simp [flattenToKeyValue, orderedEntries, entryList, FlattenOptions.config, noOpts, walkVal, walkFields, walkMixed,
      addPrims, nextPath, toStr, add, addToList, isPrimitive, isDate, sortEntries, emitStep]
    decide

/-- Claim C10, counterexample: flattening `{"": v}` does not yield `{}`
for every `v` — when `v` is itself an object, the walk continues below
the empty field name with the root path still empty, so the inner
fields surface as top-level keys: `{"": {b: 1}}` flattens to
`{"b": "1"}`, not `{}`. -/
theorem claim10_counterexample :
    flattenToKeyValue (.vobj [("", .vobj [("b", .vnum 1)])]) noOpts = [("b", "1")] ∧
    flattenToKeyValue (.vobj [("", .vobj [("b", .vnum 1)])]) noOpts ≠ [] := by
  have h : flattenToKeyValue (.vobj [("", .vobj [("b", .vnum 1)])]) noOpts = [("b", "1")] := by
    simp [flattenToKeyValue, orderedEntries, entryList, FlattenOptions.config, noOpts, walkVal, walkFields, walkMixed,
      addPrims, nextPath, toStr, add, addToList, isPrimitive, isDate, sortEntries, emitStep]
    decide
  exact ⟨h, by rw [h]; decide⟩

/-- Claim C10, amended: an empty object field name never contributes a
segment at the root, where the path stays empty: a leaf or an array of
leaves below it is filtered out by the empty-key guard (`{"": 1}` and
`{"": [1,2]}` flatten to `{}`), while an object below it has its fields
walked as if at top level (`{"": {b:1}}` flattens to `{"b": "1"}`).  At
any nested level the empty field name is kept as a literal segment,
producing the parent path followed by the delimiter: `{a: {"": 1}}`
flattens to `{"a.": "1"}`. -/
theorem claim10_empty_field_names :
    flattenToKeyValue (.vobj [("", .vnum 1)]) noOpts = [] ∧
    flattenToKeyValue (.vobj [("", .varr [.vnum 1, .vnum 2])]) noOpts = [] ∧
    flattenToKeyValue (.vobj [("", .vobj [("b", .vnum 1)])]) noOpts = [("b", "1")] ∧
    flattenToKeyValue (.vobj [("a", .vobj [("", .vnum 1)])]) noOpts = [("a.", "1")] := by
  refine ⟨?_, ?_, ?_, ?_⟩ <;>
    simp [flattenToKeyValue, orderedEntries, entryList, FlattenOptions.config, noOpts, walkVal, walkFields, walkMixed,
      addPrims, nextPath, toStr, add, addToList, isPrimitive, isDate, sortEntries, emitStep] <;>
    decide

/-- Claim C1: in an array, every plain-object element has its fields
walked at the path extension of the SAME enclosing `path`, regardless
of the element's position, so the same field-name chain across
different elements maps to the same output path and values merge under
one key in element order; in particular flattening
`{purchases: [{sku:"X",qty:1},{sku:"Y",qty:2},{sku:"X",qty:3}]}` with
defaults yields exactly
`{"purchases.sku": "X,Y,X", "purchases.qty": "1,2,3"}`. -/
theorem claim1_array_of_objects_merge :
    (∀ (cfg : Config) (pre : List JSValue) (fields : List (String × JSValue))
      (post : List JSValue) (path : String) (acc : AccMap),
      walkMixed cfg (pre ++ .vobj fields :: post) path acc =
        walkMixed cfg post path (walkFields cfg fields path (walkMixed cfg pre path acc))) ∧
    (∀ (cfg : Config) (k : String) (v : JSValue) (rest : List (String × JSValue))
      (path : String) (acc : AccMap),
      walkFields cfg ((k, v) :: rest) path acc =
        walkFields cfg rest path (walkVal cfg v (nextPath cfg path k) acc)) ∧
    flattenToKeyValue
      (.vobj [("purchases", .varr
        [.vobj [("sku", .vstr "X"), ("qty", .vnum 1)],
         .vobj [("sku", .vstr "Y"), ("qty", .vnum 2)],
         .vobj [("sku", .vstr "X"), ("qty", .vnum 3)]])])
      noOpts = [("purchases.sku", "X,Y,X"), ("purchases.qty", "1,2,3")] := by
  refine ⟨fun cfg pre fields post path acc => ?_,
    fun cfg k v rest path acc => walkFields_cons cfg k v rest path acc, ?_⟩
  · rw [walkMixed_append, walkMixed_cons_obj]
  · simp [flattenToKeyValue, orderedEntries, entryList, FlattenOptions.config, noOpts, walkVal, walkFields, walkMixed,
      addPrims, nextPath, toStr, add, addToList, isPrimitive, isDate, sortEntries, emitStep]
    decide

/-- Claim C3, counterexample: an `undefined` element of an array is NOT
emitted even with `includeNullUndefined: true` — `isPrimitive` does not
recognise `undefined` (`typeof undefined !== ...` any primitive tag),
so the mixed-array loop skips it entirely: flattening
`{a: [undefined]}` with the option on yields `{}`, not
`{"a": "undefined"}` as the claim requires. -/
theorem claim3_counterexample :
    flattenToKeyValue (.vobj [("a", .varr [.vundef])]) ⟨none, none, some true, none, none⟩
      = [] ∧
    flattenToKeyValue (.vobj [("a", .varr [.vundef])]) ⟨none, none, some true, none, none⟩
      ≠ [("a", "undefined")] := by
  have h : flattenToKeyValue (.vobj [("a", .varr [.vundef])])
      ⟨none, none, some true, none, none⟩ = [] := by
    simp [flattenToKeyValue, orderedEntries, entryList, FlattenOptions.config, walkVal, walkFields, walkMixed,
      addPrims, nextPath, toStr, add, addToList, isPrimitive, isDate, sortEntries, emitStep]
    decide
  exact ⟨h, by rw [h]; decide⟩

/-- Claim C3, amended: a `null` or `undefined` leaf in object-field
position, and a `null` element of an array, are skipped entirely when
`includeNullUndefined` is false and emit the literal string `"null"` /
`"undefined"` under their path when it is true — in particular
`{a: null, b: undefined}` flattens to `{}` by default and to
`{"a": "null", "b": "undefined"}` with the option on.  An `undefined`
element of an array, however, is always skipped, under either option
setting, because the code does not classify `undefined` as a
primitive. -/
theorem claim3_null_undefined_handling :
    flattenToKeyValue (.vobj [("a", .vnull), ("b", .vundef)]) noOpts = [] ∧
    flattenToKeyValue (.vobj [("a", .vnull), ("b", .vundef)])
      ⟨none, none, some true, none, none⟩ = [("a", "null"), ("b", "undefined")] ∧
    flattenToKeyValue (.vobj [("a", .varr [.vnull])]) noOpts = [] ∧
    flattenToKeyValue (.vobj [("a", .varr [.vnull])])
      ⟨none, none, some true, none, none⟩ = [("a", "null")] ∧
    flattenToKeyValue (.vobj [("a", .varr [.vundef])]) noOpts = [] ∧
    flattenToKeyValue (.vobj [("a", .varr [.vundef])])
      ⟨none, none, some true, none, none⟩ = [] := by
  refine ⟨?_, ?_, ?_, ?_, ?_, ?_⟩ <;>
    simp [flattenToKeyValue, orderedEntries, entryList, FlattenOptions.config, noOpts, walkVal, walkFields, walkMixed,
      addPrims, nextPath, toStr, add, addToList, isPrimitive, isDate, sortEntries, emitStep] <;>
    decide

/-- Claim C6: with `dedupeArrayValues` enabled an append to a path's
sequence is skipped exactly when the stringified value already occurs
in the sequence (so first occurrences survive in insertion order), and
with defaults duplicates are preserved in order: `{tags:["a","b","b"]}`
flattens to `{"tags": "a,b,b"}` by default and `{"tags": "a,b"}` with
the option on. -/
theorem claim6_dedupe_array_values :
    (∀ (key val : String) (acc : AccMap) (vs : List String),
      findSeq key acc = some vs → vs.contains val = true →
      addToList true key val acc = acc) ∧
    (∀ (key val : String) (acc : AccMap) (vs : List String),
      findSeq key acc = some vs → vs.contains val = false →
      findSeq key (addToList true key val acc) = some (vs ++ [val])) ∧
    (∀ (key val : String) (acc : AccMap) (vs : List String),
      findSeq key acc = some vs →
      findSeq key (addToList false key val acc) = some (vs ++ [val])) ∧
    flattenToKeyValue (.vobj [("tags", .varr [.vstr "a", .vstr "b", .vstr "b"])]) noOpts
      = [("tags", "a,b,b")] ∧
    flattenToKeyValue (.vobj [("tags", .varr [.vstr "a", .vstr "b", .vstr "b"])])
      ⟨none, none, none, some true, none⟩ = [("tags", "a,b")] := by
  refine ⟨fun key val acc vs hf hc => addToList_dedupe_skip hf hc,
    fun key val acc vs hf hc => ?_, fun key val acc vs hf => ?_, ?_, ?_⟩
  · rw [findSeq_addToList hf, hc]
    simp
  · rw [findSeq_addToList hf]
    simp
  · simp [flattenToKeyValue, orderedEntries, entryList, FlattenOptions.config, noOpts, walkVal, walkFields, walkMixed,
      addPrims, nextPath, toStr, add, addToList, isPrimitive, isDate, sortEntries, emitStep]
    decide
  · simp [flattenToKeyValue, orderedEntries, entryList, FlattenOptions.config, walkVal, walkFields, walkMixed,
      addPrims, nextPath, toStr, add, addToList, isPrimitive, isDate, sortEntries, emitStep]
    decide

/-- Witness for claim C6 at concrete inputs: with dedupe on, pushing
`"a"` onto a sequence already containing it is a no-op; pushing a fresh
`"b"` appends it; without dedupe a duplicate `"a"` is appended. -/
theorem claim6_witness :
    addToList true "k" "a" [("k", ["a"])] = [("k", ["a"])] ∧
    findSeq "k" (addToList true "k" "b" [("k", ["a"])]) = some ["a", "b"] ∧
    findSeq "k" (addToList false "k" "a" [("k", ["a"])]) = some ["a", "a"] :=
  ⟨claim6_dedupe_array_values.1 "k" "a" [("k", ["a"])] ["a"] (by decide) (by decide),
   claim6_dedupe_array_values.2.1 "k" "b" [("k", ["a"])] ["a"] (by decide) (by decide),
   claim6_dedupe_array_values.2.2.1 "k" "a" [("k", ["a"])] ["a"] (by decide)⟩

/-- Claim C2: every key present in the final output carries the join
(by the resolved `joiner`) of exactly the sequence of values
accumulated for that key during the walk, in accumulation order — with
de-duplication already folded into the accumulation when
`dedupeArrayValues` is on, since `add` performs it on insertion. -/
theorem claim2_output_is_joined_sequence (input : JSValue) (opts : FlattenOptions)
    (k v : String) (h : (k, v) ∈ flattenToKeyValue input opts) :
    ∃ vs, (k, vs) ∈ walkVal opts.config input "" [] ∧
      v = String.intercalate opts.config.joiner vs := by
  have h' := mem_entryList_of_mem_flatten input opts (k, v) h
  rw [entryList] at h'
  rcases List.mem_map.mp h' with ⟨kv, hmem, heq⟩
  obtain ⟨k1, vs⟩ := kv
  simp only [Prod.mk.injEq] at heq
  exact ⟨vs, heq.1 ▸ hmem, heq.2.symm⟩

/-- Witness for claim C2: flattening `{tags: ["a","b"]}` with defaults
contains the entry `("tags", "a,b")`, and that value is the join of the
sequence accumulated at key `"tags"`. -/
theorem claim2_witness :
    ("tags", "a,b") ∈
      flattenToKeyValue (.vobj [("tags", .varr [.vstr "a", .vstr "b"])]) noOpts ∧
    ∃ vs, ("tags", vs) ∈
        walkVal noOpts.config (.vobj [("tags", .varr [.vstr "a", .vstr "b"])]) "" [] ∧
      "a,b" = String.intercalate noOpts.config.joiner vs := by
  have hmem : ("tags", "a,b") ∈
      flattenToKeyValue (.vobj [("tags", .varr [.vstr "a", .vstr "b"])]) noOpts := by
    have he : flattenToKeyValue (.vobj [("tags", .varr [.vstr "a", .vstr "b"])]) noOpts
        = [("tags", "a,b")] := by
      simp [flattenToKeyValue, orderedEntries, entryList, FlattenOptions.config, noOpts, walkVal, walkFields, walkMixed,
        addPrims, nextPath, toStr, add, addToList, isPrimitive, isDate, sortEntries, emitStep]
      decide
    rw [he]
    exact List.mem_singleton.mpr rfl
  exact ⟨hmem, claim2_output_is_joined_sequence _ _ _ _ hmem⟩

/-- Claim C7, counterexample: `Object.fromEntries` enumerates
array-index keys first in ascending numeric order, so the returned
object's key order matches neither first-discovery nor lexicographic
order once integer-like paths occur: flattening `[{"10":1},{"2":2}]`
discovers keys in order `["10","2"]` but the returned object enumerates
`["2","10"]`, and with `sortKeys: true` the returned key order
`["2","10"]` is not lexicographically sorted, since `"10" < "2"` under
the code's comparator. -/
theorem claim7_counterexample :
    (flattenToKeyValue (.varr [.vobj [("10", .vnum 1)], .vobj [("2", .vnum 2)]])
      noOpts).map Prod.fst = ["2", "10"] ∧
    (walkVal noOpts.config (.varr [.vobj [("10", .vnum 1)], .vobj [("2", .vnum 2)]])
      "" []).map Prod.fst = ["10", "2"] ∧
    ¬ List.Sorted (fun a b => jsStringLe a b)
      ((flattenToKeyValue (.varr [.vobj [("10", .vnum 1)], .vobj [("2", .vnum 2)]])
        ⟨none, none, none, none, some true⟩).map Prod.fst) := by
  have h1 : flattenToKeyValue (.varr [.vobj [("10", .vnum 1)], .vobj [("2", .vnum 2)]])
      noOpts = [("2", "2"), ("10", "1")] := by
    simp [flattenToKeyValue, orderedEntries, entryList, FlattenOptions.config, noOpts,
      walkVal, walkFields, walkMixed, addPrims, nextPath, toStr, add, addToList,
      isPrimitive, isDate, sortEntries, emitStep]
    decide
  have h2 : flattenToKeyValue (.varr [.vobj [("10", .vnum 1)], .vobj [("2", .vnum 2)]])
      ⟨none, none, none, none, some true⟩ = [("2", "2"), ("10", "1")] := by
    simp [flattenToKeyValue, orderedEntries, entryList, FlattenOptions.config,
      walkVal, walkFields, walkMixed, addPrims, nextPath, toStr, add, addToList,
      isPrimitive, isDate, sortEntries, emitStep, List.insertionSort, List.orderedInsert]
    decide
  refine ⟨by rw [h1]; decide, ?_, ?_⟩
  · simp [FlattenOptions.config, noOpts, walkVal, walkFields, walkMixed, addPrims,
      nextPath, toStr, add, addToList, isPrimitive, isDate, emitStep]
  · rw [h2]
    intro hs
    rw [List.map_cons, List.map_cons, List.map_nil, List.sorted_cons] at hs
    exact absurd (hs.1 "10" (by decide)) (by decide)

/-- Claim C7, amended: the order guarantees hold of the entry list the
code builds just before the final `Object.fromEntries` step: with
`sortKeys` that list is sorted by the code-unit string order the JS
comparator uses, and without it its keys are in first-discovery order
of the walk.  The returned object preserves that order exactly whenever
no key is an integer-like (array-index) string — in particular on
`{b:1, a:1}` the returned key order is `["a","b"]` with the option and
`["b","a"]` without — but when array-index keys occur,
`Object.fromEntries` re-enumerates them first in ascending numeric
order. -/
theorem claim7_sort_keys_amended :
    (∀ (input : JSValue) (opts : FlattenOptions),
      (opts.sortKeys.getD false = true →
        List.Sorted (fun a b => jsStringLe a b)
          ((orderedEntries input opts).map Prod.fst)) ∧
      (opts.sortKeys.getD false = false →
        (orderedEntries input opts).map Prod.fst =
          (walkVal opts.config input "" []).map Prod.fst) ∧
      ((orderedEntries input opts).all (fun p => !isArrayIndexKey p.1) = true →
        flattenToKeyValue input opts = orderedEntries input opts)) ∧
    (flattenToKeyValue (.vobj [("b", .vnum 1), ("a", .vnum 1)])
      ⟨none, none, none, none, some true⟩).map Prod.fst = ["a", "b"] ∧
    (flattenToKeyValue (.vobj [("b", .vnum 1), ("a", .vnum 1)]) noOpts).map Prod.fst
      = ["b", "a"] := by
  refine ⟨fun input opts => ⟨fun hs => ?_, fun hs => ?_, fun hn => ?_⟩, ?_, ?_⟩
  · rw [orderedEntries, if_pos hs, sortEntries]
    have hsorted : List.Sorted (fun x y : String × String => jsStringLe x.1 y.1)
        (List.insertionSort (fun x y => jsStringLe x.1 y.1) (entryList input opts)) :=
      List.sorted_insertionSort _ _
    exact List.Pairwise.map Prod.fst (fun a b hab => hab) hsorted
  · rw [orderedEntries, if_neg (by rw [hs]; exact Bool.false_ne_true), entryList,
      List.map_map]
    exact List.map_congr_left fun a _ => rfl
  · rw [flattenToKeyValue, fromEntries_of_no_index _ hn]
  · simp [flattenToKeyValue, orderedEntries, entryList, FlattenOptions.config,
      walkVal, walkFields, walkMixed, addPrims, nextPath, toStr, add, addToList,
      isPrimitive, isDate, sortEntries, emitStep, List.insertionSort, List.orderedInsert]
    decide
  · simp [flattenToKeyValue, orderedEntries, entryList, FlattenOptions.config, noOpts,
      walkVal, walkFields, walkMixed, addPrims, nextPath, toStr, add, addToList,
      isPrimitive, isDate, sortEntries, emitStep]
    decide

/-- Witness for claim C7 at concrete inputs: on `{b:1, a:1}` the sorted
entry list is code-unit ordered and the unsorted entry list carries the
first-discovery keys; and on a key set with no array-index keys the
returned object equals the entry list. -/
theorem claim7_witness :
    List.Sorted (fun a b => jsStringLe a b)
      ((orderedEntries (.vobj [("b", .vnum 1), ("a", .vnum 1)])
        ⟨none, none, none, none, some true⟩).map Prod.fst) ∧
    (orderedEntries (.vobj [("b", .vnum 1), ("a", .vnum 1)]) noOpts).map Prod.fst =
      (walkVal noOpts.config (.vobj [("b", .vnum 1), ("a", .vnum 1)]) "" []).map Prod.fst ∧
    flattenToKeyValue (.vobj [("b", .vnum 1), ("a", .vnum 1)]) noOpts =
      orderedEntries (.vobj [("b", .vnum 1), ("a", .vnum 1)]) noOpts :=
  ⟨(claim7_sort_keys_amended.1 (.vobj [("b", .vnum 1), ("a", .vnum 1)])
      ⟨none, none, none, none, some true⟩).1 rfl,
   (claim7_sort_keys_amended.1 (.vobj [("b", .vnum 1), ("a", .vnum 1)]) noOpts).2.1 rfl,
   (claim7_sort_keys_amended.1 (.vobj [("b", .vnum 1), ("a", .vnum 1)]) noOpts).2.2 (by
     simp [orderedEntries, entryList, FlattenOptions.config, noOpts, walkVal,
       walkFields, walkMixed, addPrims, nextPath, toStr, add, addToList,
       isPrimitive, isDate, sortEntries, emitStep]
     decide)⟩

/-- Claim C8: every key of the returned mapping is a non-empty string —
the empty-key guard in `add` filters the root path — and in particular
a bare top-level primitive flattens to the empty mapping under any
options: `flattenToKeyValue(42)` is `{}`. -/
theorem claim8_keys_nonempty :
    (∀ (input : JSValue) (opts : FlattenOptions) (k v : String),
      (k, v) ∈ flattenToKeyValue input opts → k ≠ "") ∧
    (∀ opts : FlattenOptions, flattenToKeyValue (.vnum 42) opts = []) := by
  constructor
  · intro input opts k v h
    have hacc : ∀ p ∈ walkVal opts.config input "" [], p.1 ≠ "" :=
      walkVal_preserves opts.config (fun acc => ∀ p ∈ acc, p.1 ≠ "")
        (fun key val acc hP => add_keys_ne opts.config key val acc hP)
        input "" [] (by intro p hp; cases hp)
    have h' := mem_entryList_of_mem_flatten input opts (k, v) h
    rw [entryList] at h'
    rcases List.mem_map.mp h' with ⟨kv, hmem, heq⟩
    obtain ⟨k1, vs⟩ := kv
    simp only [Prod.mk.injEq] at heq
    exact heq.1 ▸ hacc (k1, vs) hmem
  · intro opts
    have hw : walkVal opts.config (.vnum 42) "" [] = [] := by
      rw [walkVal_leaf opts.config (.vnum 42) "" [] (by intro x hx; cases hx)
        (by intro x hx; cases hx)]
      simp [emitStep, toStr, add]
    simp [flattenToKeyValue, orderedEntries, entryList, hw, sortEntries,
      List.insertionSort, fromEntries]

/-- Witness for claim C8: the key `"a.b"` produced by flattening
`{a: {b: 1}}` is non-empty, and flattening the bare number `42` with
default options yields the empty mapping. -/
theorem claim8_witness :
    ("a.b", "1") ∈ flattenToKeyValue (.vobj [("a", .vobj [("b", .vnum 1)])]) noOpts ∧
    "a.b" ≠ "" ∧
    flattenToKeyValue (.vnum 42) noOpts = [] := by
  have hmem : ("a.b", "1") ∈
      flattenToKeyValue (.vobj [("a", .vobj [("b", .vnum 1)])]) noOpts := by
    have he : flattenToKeyValue (.vobj [("a", .vobj [("b", .vnum 1)])]) noOpts
        = [("a.b", "1")] := by
      simp [flattenToKeyValue, orderedEntries, entryList, FlattenOptions.config, noOpts, walkVal, walkFields, walkMixed,
        addPrims, nextPath, toStr, add, addToList, isPrimitive, isDate, sortEntries, emitStep]
      decide
    rw [he]
    exact List.mem_singleton.mpr rfl
  exact ⟨hmem, claim8_keys_nonempty.1 _ _ _ _ hmem, claim8_keys_nonempty.2 noOpts⟩
